import Mathlib

/-!
Shallow embedding of `mmdet/models/anchor_heads/fouriernet_head.py`
(FourierNetHead): point-grid generation, the angle table, the
polar/Fourier contour codec, the positive-point selection of `loss`,
the pre-NMS top-k filter, and the rescale gate of `get_bboxes_single`.
Discrete/tensor-shape code is embedded over `ℕ`/`ℤ`/`ℚ`; analytic code
(sqrt, exp, the discrete Fourier transform) over `ℝ`/`ℂ`.
-/

namespace FourierNet

/-! ## Point grid (`get_points_single`, lines 372-381)

`x_range = arange(0, w*stride, stride)` has `w` entries `0, s, …, (w-1)s`;
`y_range` likewise with `h` entries.  `meshgrid(y_range, x_range)` (the
default "ij" indexing) followed by `reshape(-1)` enumerates points row by
row, and `+ stride // 2` adds the Python integer floor division
`stride // 2` to both coordinates. -/

def get_points_single (h w stride : ℕ) : List (ℕ × ℕ) :=
  ((List.range h).map (fun row =>
    (List.range w).map (fun col =>
      (col * stride + stride / 2, row * stride + stride / 2)))).flatten

/-! ## Angle table (`__init__`, lines 48 and 69)

`self.interval = 360 // self.contour_points` and
`self.angles = torch.range(0, 359, interval) / 180 * π`.
`torch.range(0, e, s)` is end-inclusive: it has `e / s + 1` entries
`0, s, 2s, …` (and raises for `s = 0`, modelled here as the empty
table). -/

def interval (K : ℕ) : ℕ := 360 / K

def torch_range_list (stop step : ℕ) : List ℕ :=
  if step = 0 then [] else (List.range (stop / step + 1)).map (· * step)

def angle_degrees (K : ℕ) : List ℕ := torch_range_list 359 (interval K)

noncomputable def angles (K : ℕ) : List ℝ :=
  (angle_degrees K).map (fun d => (d : ℝ) / 180 * Real.pi)

/-! ## Centerness target (`polar_centerness_target`, lines 425-428)

`sqrt(pos_mask_targets.min(dim=-1)[0] / pos_mask_targets.max(dim=-1)[0])`,
per row of the positive mask-target matrix; one row is a nonempty vector
`d : Fin (n+1) → ℝ` of ray distances. -/

noncomputable def polar_centerness_target {n : ℕ} (d : Fin (n + 1) → ℝ) : ℝ :=
  Real.sqrt (Finset.univ.inf' Finset.univ_nonempty d /
    Finset.univ.sup' Finset.univ_nonempty d)

/-! ## Positive-point selection in `loss` (lines 296-304 and 343-346)

`pos_inds = flatten_labels.nonzero()`; when `num_pos = 0` the three
regression losses are the sums of the (empty) positive selections of the
flattened predictions.  The positive (`num_pos > 0`) branch calls the
externally supplied loss functions, kept abstract here. -/

def pos_inds (labels : List ℤ) : List ℕ :=
  (List.range labels.length).filter (fun i => labels.getD i 0 ≠ 0)

def sel {α : Type} (xs : List α) (dflt : α) (idx : List ℕ) : List α :=
  idx.map (fun i => xs.getD i dflt)

def sum_rows (xs : List (List ℚ)) : ℚ := (xs.map List.sum).sum

def loss_reg_components (labels : List ℤ)
    (bbox_preds mask_preds : List (List ℚ)) (ctr_preds : List ℚ)
    (pos_bbox_loss pos_mask_loss pos_ctr_loss : List ℕ → ℚ) : ℚ × ℚ × ℚ :=
  let pos := pos_inds labels
  let num_pos := pos.length
  let pos_bbox := sel bbox_preds [] pos
  let pos_ctr := sel ctr_preds 0 pos
  let pos_mask := sel mask_preds [] pos
  if 0 < num_pos then
    (pos_bbox_loss pos, pos_mask_loss pos, pos_ctr_loss pos)
  else
    (sum_rows pos_bbox, sum_rows pos_mask, pos_ctr.sum)

/-! ## Binding of `flatten_bbox_preds` in `loss` (lines 249-286)

The Python local `flatten_bbox_preds` is bound only on the
`use_fourier and not loss_on_coe` path (lines 256-267, from the decoded
masks when `bbox_from_mask`, else the empty list that line 280 then
overwrites) or on the `not bbox_from_mask` path (lines 279-283); the
`torch.cat` at line 286 raises `UnboundLocalError` otherwise.  `none`
models the unbound state. -/

structure LossCfg where
  use_fourier : Bool
  loss_on_coe : Bool
  bbox_from_mask : Bool

def loss_flatten_bbox_preds (cfg : LossCfg)
    (bbox_preds mask_derived : List (List ℚ)) : Option (List (List ℚ)) :=
  let fb : Option (List (List ℚ)) := none
  let fb := if cfg.use_fourier && !cfg.loss_on_coe then
      some (if cfg.bbox_from_mask then mask_derived else []) else fb
  let fb := if !cfg.bbox_from_mask then some bbox_preds else fb
  fb

/-! ## Rescale gate in `get_bboxes_single` (lines 523-558)

`_mlvl_bboxes` and `_mlvl_masks` are bound only inside `if rescale:`
(lines 523-529; both the `try` and the `except` branch divide by the
scale factor), yet both NMS branches (lines 536-558) read them; with
`rescale` falsy the NMS call raises `UnboundLocalError`.  `none` models
the unbound state, and the external NMS routine is abstract. -/

def rescaled_nms_input (rescale : Bool) (mlvl_bboxes mlvl_masks : List ℚ)
    (scale_factor : ℚ) : Option (List ℚ × List ℚ) :=
  let rb : Option (List ℚ) :=
    if rescale then some (mlvl_bboxes.map (· / scale_factor)) else none
  let rm : Option (List ℚ) :=
    if rescale then some (mlvl_masks.map (· / scale_factor)) else none
  match rb, rm with
  | some b, some m => some (b, m)
  | _, _ => none

def get_bboxes_single_result {Dets : Type} (rescale : Bool)
    (mlvl_bboxes mlvl_masks : List ℚ) (scale_factor : ℚ)
    (nms : List ℚ × List ℚ → Dets) : Option Dets :=
  (rescaled_nms_input rescale mlvl_bboxes mlvl_masks scale_factor).map nms

/-! ## Discrete Fourier transform (`torch.rfft` / `torch.irfft` with
`normalized=True`, `onesided=False`; `loss` lines 269-271 and 326-328,
`distance2mask` lines 573-584)

With `onesided=False` the forward transform of a length-`K` real signal
is the full two-sided spectrum of `K` complex coefficients, and the
inverse is the real part of the full complex inverse transform; with
`normalized=True` both are scaled by `1/√K`.  Line 328 truncates the
target spectrum to the first `num_coe` coefficients; lines 269-271 and
575-584 concatenate predicted coefficients with zeros up to width
`contour_points` before the inverse transform, and `.exp()` is the final
output step. -/

noncomputable def rfft_coeff (K : ℕ) (d : Fin K → ℝ) (j : Fin K) : ℂ :=
  ((Real.sqrt K : ℝ) : ℂ)⁻¹ *
    ∑ k : Fin K, (d k : ℂ) *
      Complex.exp (-(2 * (Real.pi : ℂ) * Complex.I * (j : ℕ) * (k : ℕ)) / K)

noncomputable def irfft (K : ℕ) (X : Fin K → ℂ) (k : Fin K) : ℝ :=
  (((Real.sqrt K : ℝ) : ℂ)⁻¹ *
    ∑ j : Fin K, X j *
      Complex.exp (2 * (Real.pi : ℂ) * Complex.I * (j : ℕ) * (k : ℕ) / K)).re

/-- Truncation of a spectrum to its first `C` coefficients followed by
zero-padding back to width `K` (lines 328 and 269-271). -/
def trunc_pad (K C : ℕ) (X : Fin K → ℂ) (j : Fin K) : ℂ :=
  if (j : ℕ) < C then X j else 0

/-- The full target round trip of the frequency path: forward transform,
truncation to `C` coefficients, zero-padding, inverse transform, and the
head's final exponentiation. -/
noncomputable def mask_round_trip (K C : ℕ) (d : Fin K → ℝ) (k : Fin K) : ℝ :=
  Real.exp (irfft K (trunc_pad K C (rfft_coeff K d)) k)

/-! ## Decoded regression outputs (`forward_single` lines 200-217,
`distance2mask` lines 573-584)

`bbox_pred = scale_bbox(polar_reg(...)).float().exp()`; the non-Fourier
mask path is `scale_mask(polar_mask(...)).float().exp()`; the Fourier
mask path pads the `C` predicted coefficients to width `K`, applies the
inverse transform and exponentiates. -/

noncomputable def bbox_pred_decode (scale raw : ℝ) : ℝ := Real.exp (scale * raw)

noncomputable def mask_pred_decode_direct (scale raw : ℝ) : ℝ :=
  Real.exp (scale * raw)

def pad_coeffs (K C : ℕ) (X : Fin C → ℂ) (j : Fin K) : ℂ :=
  if h : (j : ℕ) < C then X ⟨j, h⟩ else 0

noncomputable def fourier_ray_decode (K C : ℕ) (X : Fin C → ℂ) (k : Fin K) : ℝ :=
  Real.exp (irfft K (pad_coeffs K C X) k)

/-! ## Polygon decoding at inference (`distance2mask` test path,
lines 579-606)

`distances.reshape(-1, num_coe, 2)[..., :visulize_coe, :]` is
concatenated with zeros up to `contour_points`, inverse-transformed and
exponentiated; then `x = d·sin θ + c_x`, `y = d·cos θ + c_y` over the
stored angle table, clamped to `[0, w-1] × [0, h-1]` when `max_shape`
is given. -/

noncomputable def test_distances (K V : ℕ) (coeffs : List ℂ) (k : Fin K) : ℝ :=
  Real.exp (irfft K (fun j => if (j : ℕ) < V then coeffs.getD (j : ℕ) 0 else 0) k)

noncomputable def distance2mask_test (K V : ℕ) (pts : List (ℝ × ℝ))
    (preds : List (List ℂ)) (max_shape : Option (ℝ × ℝ)) :
    List (List (ℝ × ℝ)) :=
  (pts.zip preds).map (fun pc =>
    (List.finRange K).map (fun a =>
      let d := test_distances K V pc.2 a
      let θ := (angles K).getD (a : ℕ) 0
      let x := d * Real.sin θ + pc.1.1
      let y := d * Real.cos θ + pc.1.2
      match max_shape with
      | some hw => (min (max x 0) (hw.2 - 1), min (max y 0) (hw.1 - 1))
      | none => (x, y)))

/-! ## Pre-NMS top-k filter (`get_bboxes_single`, lines 496-504)

`nms_pre = cfg.get('nms_pre', -1)`; when `0 < nms_pre < scores.shape[0]`,
the fused score `(scores * centerness[:, None]).max(dim=1)` is computed
per point and the `nms_pre` points with the largest fused scores are
kept (`topk` followed by index selection on points, bbox, mask, scores
and centerness); otherwise all tensors pass through unchanged. -/

def row_max : List ℚ → ℚ
  | [] => 0
  | x :: xs => xs.foldl max x

def fused_scores (scores : List (List ℚ)) (ctr : List ℚ) : List ℚ :=
  (scores.zip ctr).map (fun sc => row_max (sc.1.map (· * sc.2)))

/-- Indices of a value list sorted by descending value, as `torch.topk`
orders its output. -/
def sorted_inds (vals : List ℚ) : List ℕ :=
  (List.range vals.length).mergeSort (fun i j => vals.getD j 0 ≤ vals.getD i 0)

def topk_inds (vals : List ℚ) (k : ℕ) : List ℕ := (sorted_inds vals).take k

structure LevelData where
  scores : List (List ℚ)
  ctr : List ℚ
  points : List (ℚ × ℚ)
  bbox : List (List ℚ)
  mask : List (List ℚ)

def pre_nms_filter (nms_pre : ℤ) (L : LevelData) : LevelData :=
  if 0 < nms_pre ∧ nms_pre < (L.scores.length : ℤ) then
    let inds := topk_inds (fused_scores L.scores L.ctr) nms_pre.toNat
    { scores := sel L.scores [] inds
      ctr := sel L.ctr 0 inds
      points := sel L.points (0, 0) inds
      bbox := sel L.bbox [] inds
      mask := sel L.mask [] inds }
  else L

/-! ## Theorems -/

/-- Normal form of the point grid: the flattened row-major enumeration. -/
lemma get_points_single_eq (h w s : ℕ) :
    get_points_single h w s = (List.range (h * w)).map
      (fun i => (i % w * s + s / 2, i / w * s + s / 2)) := by
  induction h with
  | zero => simp [get_points_single]
  | succ h ih =>
    rw [get_points_single] at ih
    rw [get_points_single, List.range_succ, List.map_append, List.flatten_append,
      ih, Nat.succ_mul, List.range_add, List.map_append, List.map_map]
    congr 1
    simp only [List.map_cons, List.map_nil, List.flatten_cons, List.flatten_nil,
      List.append_nil]
    refine List.map_congr_left ?_
    intro j hj
    have hjw : j < w := List.mem_range.mp hj
    have hw : 0 < w := by omega
    simp only [Function.comp_apply]
    rw [Nat.mul_comm h w, Nat.mul_add_mod, Nat.mod_eq_of_lt hjw,
      Nat.mul_add_div hw, Nat.div_eq_of_lt hjw, Nat.add_zero]

/-- Claim C5 (amended): for a level of height `h`, width `w` and stride
`s`, exactly `h·w` points are produced and the point for `(row, col)` has
coordinates `(s·col + s⌊/2⌋, s·row + s⌊/2⌋)` with the Python floor
division `s // 2` (equal to `s/2` for the even default strides); when
`h = 0` or `w = 0` the operation returns an empty point list rather than
raising an invalid-input error. -/
theorem get_points_single_spec (h w s : ℕ) :
    (get_points_single h w s).length = h * w ∧
    (∀ row col, row < h → col < w →
      (get_points_single h w s).getD (row * w + col) (0, 0)
        = (col * s + s / 2, row * s + s / 2)) ∧
    ((h = 0 ∨ w = 0) → get_points_single h w s = []) := by
  refine ⟨?_, ?_, ?_⟩
  · rw [get_points_single_eq]; simp
  · intro row col hr hc
    have hi : row * w + col < h * w := by
      have h2 : (row + 1) * w ≤ h * w := Nat.mul_le_mul_right w hr
      have h3 : (row + 1) * w = row * w + w := by ring
      omega
    rw [get_points_single_eq, List.getD_eq_getElem?_getD, List.getElem?_map,
      List.getElem?_range hi]
    have hmod : (row * w + col) % w = col := by
      rw [Nat.mul_comm row w, Nat.mul_add_mod, Nat.mod_eq_of_lt hc]
    have hdiv : (row * w + col) / w = row := by
      rw [Nat.mul_comm row w, Nat.mul_add_div (by omega), Nat.div_eq_of_lt hc,
        Nat.add_zero]
    simp [hmod, hdiv]
  · rintro (rfl | rfl) <;> rw [get_points_single_eq] <;> simp

/-- Witness for C5 (amended) at `h = 2`, `w = 3`, `s = 4`. -/
theorem get_points_single_spec_witness :
    (1 < 2 ∧ 2 < 3) ∧
      (get_points_single 2 3 4).getD (1 * 3 + 2) (0, 0)
        = (2 * 4 + 4 / 2, 1 * 4 + 4 / 2) :=
  ⟨by decide, (get_points_single_spec 2 3 4).2.1 1 2 (by decide) (by decide)⟩

/-- Counterexample for C5 as stated: at `h = 0` the operation silently
returns the empty point list instead of failing with an invalid-input
error, and at odd stride `5` the produced coordinate is the floor
`5 // 2 = 2`, not `s/2 = 5/2`. -/
theorem get_points_single_claim_cex :
    get_points_single 0 7 4 = [] ∧
      get_points_single 1 1 5 = [(2, 2)] ∧ ((2 : ℚ) ≠ 5 / 2) :=
  ⟨by decide, by decide, by norm_num⟩

/-- Normal form of the angle table in degrees when `K` divides 360. -/
lemma angle_degrees_eq (K : ℕ) (hK : 0 < K) (hdvd : K ∣ 360) :
    angle_degrees K = (List.range K).map (· * (360 / K)) := by
  have hKle : K ≤ 360 := Nat.le_of_dvd (by omega) hdvd
  have hs : 0 < 360 / K := Nat.div_pos hKle hK
  have hsK : 360 / K * K = 360 := Nat.div_mul_cancel hdvd
  have hKs : K * (360 / K) = 360 := by rw [Nat.mul_comm]; exact hsK
  rw [angle_degrees, interval, torch_range_list, if_neg (by omega)]
  have h359 : 359 / (360 / K) = K - 1 := by
    apply Nat.div_eq_of_lt_le
    · have h1 : (K - 1) * (360 / K) = 360 - 360 / K := by
        rw [Nat.sub_mul, one_mul, hKs]
      omega
    · have h2 : (K - 1 + 1) * (360 / K) = 360 := by
        rw [Nat.sub_add_cancel hK, hKs]
      omega
  rw [h359, Nat.sub_add_cancel hK]

/-- Claim C6 (amended): when `contour_points = K` divides 360 (so the
integer step `360 // K` equals `360/K`), the angle table built at
construction has exactly `K` entries and entry `i` is `i · (360/K)`
degrees, a uniform spacing over 360°; the table stores the angles
themselves (in radians), and the decode operation derives sin/cos from
this stored table on each call. -/
theorem angle_table_spec (K : ℕ) (hK : 0 < K) (hdvd : K ∣ 360) :
    (angle_degrees K).length = K ∧
      ∀ i, i < K → (angle_degrees K).getD i 0 = i * (360 / K) := by
  rw [angle_degrees_eq K hK hdvd]
  refine ⟨by simp, ?_⟩
  intro i hi
  rw [List.getD_eq_getElem?_getD, List.getElem?_map, List.getElem?_range hi]
  rfl

/-- Witness for C6 (amended) at `K = 36`. -/
theorem angle_table_spec_witness :
    (0 < 36 ∧ (36 : ℕ) ∣ 360) ∧
      ((angle_degrees 36).length = 36 ∧
        (angle_degrees 36).getD 3 0 = 3 * (360 / 36)) :=
  ⟨by decide, ⟨(angle_table_spec 36 (by decide) (by decide)).1,
    (angle_table_spec 36 (by decide) (by decide)).2 3 (by decide)⟩⟩

/-- Counterexample for C6 as stated: at `contour_points = 100` the
integer step is `360 // 100 = 3` and the end-inclusive
`torch.range(0, 359, 3)` produces 120 angles, not 100. -/
theorem angle_table_claim_cex :
    (angle_degrees 100).length = 120 ∧ (angle_degrees 100).length ≠ 100 := by
  decide

/-- Geometric-series orthogonality of the discrete Fourier kernel: the
sum of the `K`-th roots of unity at frequency `m` is `K` when `K ∣ m`
and `0` otherwise. -/
lemma sum_exp_unit_root (K : ℕ) (hK : 0 < K) (m : ℤ) :
    ∑ j : Fin K, Complex.exp
        (2 * (Real.pi : ℂ) * Complex.I * (m : ℂ) * ((j : ℕ) : ℂ) / K)
      = if (K : ℤ) ∣ m then (K : ℂ) else 0 := by
  have hKne : ((K : ℕ) : ℂ) ≠ 0 := Nat.cast_ne_zero.mpr (by omega)
  set z : ℂ := Complex.exp (2 * (Real.pi : ℂ) * Complex.I * (m : ℂ) / K)
    with hz_def
  have hzpow : ∀ j : ℕ,
      Complex.exp (2 * (Real.pi : ℂ) * Complex.I * (m : ℂ) * (j : ℂ) / K)
        = z ^ j := by
    intro j
    rw [hz_def, ← Complex.exp_nat_mul]
    congr 1
    ring
  have hsum : ∑ j : Fin K, Complex.exp
      (2 * (Real.pi : ℂ) * Complex.I * (m : ℂ) * ((j : ℕ) : ℂ) / K)
        = ∑ j ∈ Finset.range K, z ^ j := by
    rw [← Fin.sum_univ_eq_sum_range (fun j => z ^ j) K]
    exact Finset.sum_congr rfl fun j _ => hzpow j
  rw [hsum]
  by_cases hdvd : (K : ℤ) ∣ m
  · obtain ⟨t, ht⟩ := hdvd
    have hz1 : z = 1 := by
      rw [hz_def]
      have harg : 2 * (Real.pi : ℂ) * Complex.I * (m : ℂ) / K
          = (t : ℂ) * (2 * (Real.pi : ℂ) * Complex.I) := by
        rw [ht]
        push_cast
        field_simp
        ring
      rw [harg]
      exact_mod_cast Complex.exp_int_mul_two_pi_mul_I t
    rw [if_pos ⟨t, ht⟩]
    simp [hz1]
  · have hzK : z ^ K = 1 := by
      rw [hz_def, ← Complex.exp_nat_mul]
      have harg : (K : ℂ) * (2 * (Real.pi : ℂ) * Complex.I * (m : ℂ) / K)
          = (m : ℂ) * (2 * (Real.pi : ℂ) * Complex.I) := by
        field_simp
        ring
      rw [harg]
      exact_mod_cast Complex.exp_int_mul_two_pi_mul_I m
    have hzne : z ≠ 1 := by
      intro hz1
      rw [hz_def, Complex.exp_eq_one_iff] at hz1
      obtain ⟨n, hn⟩ := hz1
      have hmul : 2 * (Real.pi : ℂ) * Complex.I * (m : ℂ)
          = 2 * (Real.pi : ℂ) * Complex.I * ((n : ℂ) * (K : ℂ)) := by
        field_simp at hn
        linear_combination hn
      have h2pi : (2 * (Real.pi : ℂ) * Complex.I) ≠ 0 := by
        simp [Complex.ofReal_ne_zero, Real.pi_ne_zero, Complex.I_ne_zero]
      have hmn : (m : ℂ) = ((n * K : ℤ) : ℂ) := by
        push_cast
        exact mul_left_cancel₀ h2pi hmul
      have hm : m = n * K := by exact_mod_cast hmn
      exact hdvd ⟨n, by rw [hm, Int.mul_comm]⟩
    rw [if_neg hdvd, geom_sum_eq hzne, hzK]
    simp

/-- Exact inversion of the embedded two-sided normalized transform: with
all `K` coefficients kept, `irfft` recovers the input signal. -/
lemma irfft_rfft_coeff (K : ℕ) (d : Fin K → ℝ) (k : Fin K) :
    irfft K (trunc_pad K K (rfft_coeff K d)) k = d k := by
  have hK : 0 < K := k.pos
  have hKne : ((K : ℕ) : ℂ) ≠ 0 := Nat.cast_ne_zero.mpr (by omega)
  have hsqrt : (0 : ℝ) < Real.sqrt K :=
    Real.sqrt_pos.mpr (by exact_mod_cast hK)
  have hsne : ((Real.sqrt K : ℝ) : ℂ) ≠ 0 :=
    Complex.ofReal_ne_zero.mpr (ne_of_gt hsqrt)
  have htp : trunc_pad K K (rfft_coeff K d) = rfft_coeff K d := by
    funext j
    exact if_pos j.isLt
  rw [irfft, htp]
  have key : ((Real.sqrt K : ℝ) : ℂ)⁻¹ * ∑ j : Fin K, rfft_coeff K d j *
      Complex.exp (2 * (Real.pi : ℂ) * Complex.I * ((j : ℕ) : ℂ)
        * ((k : ℕ) : ℂ) / K) = ((d k : ℝ) : ℂ) := by
    simp only [rfft_coeff]
    calc ((Real.sqrt K : ℝ) : ℂ)⁻¹ * ∑ j : Fin K,
          (((Real.sqrt K : ℝ) : ℂ)⁻¹ * ∑ k' : Fin K, ((d k' : ℝ) : ℂ) *
            Complex.exp (-(2 * (Real.pi : ℂ) * Complex.I * ((j : ℕ) : ℂ)
              * ((k' : ℕ) : ℂ)) / K)) *
          Complex.exp (2 * (Real.pi : ℂ) * Complex.I * ((j : ℕ) : ℂ)
            * ((k : ℕ) : ℂ) / K)
        = ((Real.sqrt K : ℝ) : ℂ)⁻¹ * (((Real.sqrt K : ℝ) : ℂ)⁻¹ *
            ∑ j : Fin K, ∑ k' : Fin K, ((d k' : ℝ) : ℂ) *
              (Complex.exp (-(2 * (Real.pi : ℂ) * Complex.I * ((j : ℕ) : ℂ)
                  * ((k' : ℕ) : ℂ)) / K) *
                Complex.exp (2 * (Real.pi : ℂ) * Complex.I * ((j : ℕ) : ℂ)
                  * ((k : ℕ) : ℂ) / K))) := by
          congr 1
          rw [Finset.mul_sum]
          refine Finset.sum_congr rfl fun j _ => ?_
          rw [mul_assoc, Finset.sum_mul]
          congr 1
          refine Finset.sum_congr rfl fun k' _ => ?_
          rw [mul_assoc]
      _ = ((Real.sqrt K : ℝ) : ℂ)⁻¹ * (((Real.sqrt K : ℝ) : ℂ)⁻¹ *
            ∑ k' : Fin K, ((d k' : ℝ) : ℂ) *
              ∑ j : Fin K, Complex.exp (2 * (Real.pi : ℂ) * Complex.I *
                ((((k : ℕ) : ℤ) - ((k' : ℕ) : ℤ) : ℤ) : ℂ)
                  * ((j : ℕ) : ℂ) / K)) := by
          congr 2
          rw [Finset.sum_comm]
          refine Finset.sum_congr rfl fun k' _ => ?_
          rw [Finset.mul_sum]
          refine Finset.sum_congr rfl fun j _ => ?_
          congr 1
          rw [← Complex.exp_add]
          congr 1
          push_cast
          ring
      _ = ((Real.sqrt K : ℝ) : ℂ)⁻¹ * (((Real.sqrt K : ℝ) : ℂ)⁻¹ *
            ∑ k' : Fin K, ((d k' : ℝ) : ℂ) *
              (if k' = k then (K : ℂ) else 0)) := by
          congr 2
          refine Finset.sum_congr rfl fun k' _ => ?_
          rw [sum_exp_unit_root K hK]
          congr 1
          have hiff : ((K : ℤ) ∣ (((k : ℕ) : ℤ) - ((k' : ℕ) : ℤ)))
              ↔ k' = k := by
            have hk1 : ((k : ℕ) : ℤ) < K := by exact_mod_cast k.isLt
            have hk2 : ((k' : ℕ) : ℤ) < K := by exact_mod_cast k'.isLt
            have hk3 : (0 : ℤ) ≤ ((k : ℕ) : ℤ) := Int.natCast_nonneg _
            have hk4 : (0 : ℤ) ≤ ((k' : ℕ) : ℤ) := Int.natCast_nonneg _
            constructor
            · intro hdvd
              have habs : |((k : ℕ) : ℤ) - ((k' : ℕ) : ℤ)| < K :=
                abs_sub_lt_iff.mpr ⟨by omega, by omega⟩
              have hz := Int.eq_zero_of_abs_lt_dvd hdvd habs
              have hval : (k' : ℕ) = (k : ℕ) := by omega
              exact Fin.ext hval
            · rintro rfl
              simp
          rw [if_congr hiff rfl rfl]
      _ = ((Real.sqrt K : ℝ) : ℂ)⁻¹ * (((Real.sqrt K : ℝ) : ℂ)⁻¹ *
            (((d k : ℝ) : ℂ) * (K : ℂ))) := by
          congr 2
          simp [mul_ite]
      _ = ((d k : ℝ) : ℂ) := by
          have hs : ((Real.sqrt K : ℝ) : ℂ) * ((Real.sqrt K : ℝ) : ℂ)
              = (K : ℂ) := by
            rw [← Complex.ofReal_mul,
              Real.mul_self_sqrt (by positivity)]
            norm_cast
          rw [← hs]
          field_simp
  rw [key, Complex.ofReal_re]

/-- Claim C2 (amended): under the code's two-sided transform
(`onesided=False`), the full-resolution round trip keeps all `C = K`
coefficients (not `K/2 + 1`), and the inverse transform then recovers
the signal exactly; the head's final exponentiation therefore makes the
pipeline output `exp (d k)`, not `d k`. -/
theorem mask_round_trip_full (K : ℕ) (d : Fin K → ℝ) (k : Fin K) :
    mask_round_trip K K d k = Real.exp (d k) := by
  rw [mask_round_trip, irfft_rfft_coeff]

/-- Counterexample for C2 as stated: for `K = 2` with the claimed full
coefficient count `C = K/2 + 1 = 2` (no truncation at all here), the
pipeline applied to the constant ray vector `1` yields `exp 1 > 2` at
index `0`, missing the original entry `1` by more than `1` — far beyond
floating-point tolerance. -/
theorem mask_round_trip_claim_cex :
    mask_round_trip 2 (2 / 2 + 1) (fun _ => 1) 0 - (fun _ => (1 : ℝ)) 0 > 1 := by
  have h2 : (2 / 2 + 1 : ℕ) = 2 := by norm_num
  have h : mask_round_trip 2 (2 / 2 + 1) (fun _ => 1) 0 = Real.exp 1 := by
    rw [h2, mask_round_trip, irfft_rfft_coeff]
  rw [h]
  have hgt := Real.exp_one_gt_d9
  norm_num at hgt ⊢
  linarith

/-- The inference-path reconstructed distances depend only on the first
`V = visulize_coe` coefficients. -/
lemma test_distances_congr (K V : ℕ) {c₁ c₂ : List ℂ}
    (h : ∀ i, i < V → c₁.getD i 0 = c₂.getD i 0) :
    test_distances K V c₁ = test_distances K V c₂ := by
  have hX : (fun j : Fin K => if (j : ℕ) < V then c₁.getD (j : ℕ) 0 else 0)
      = (fun j : Fin K => if (j : ℕ) < V then c₂.getD (j : ℕ) 0 else 0) := by
    funext j
    by_cases hj : (j : ℕ) < V
    · rw [if_pos hj, if_pos hj]
      exact h _ hj
    · rw [if_neg hj, if_neg hj]
  funext k
  rw [test_distances, test_distances, hX]

/-- Claim C10: at inference with `use_fourier`, the decoded polygons of
`distance2mask` are a function of the first `visulize_coe` frequency
coefficients only: two mask predictions for the same points that agree
on their first `visulize_coe` coefficients decode to identical
polygons. -/
theorem distance2mask_test_only_visulize (K V : ℕ) (pts : List (ℝ × ℝ))
    (preds₁ preds₂ : List (List ℂ)) (max_shape : Option (ℝ × ℝ))
    (h : List.Forall₂ (fun c₁ c₂ => ∀ i, i < V → c₁.getD i 0 = c₂.getD i 0)
      preds₁ preds₂) :
    distance2mask_test K V pts preds₁ max_shape
      = distance2mask_test K V pts preds₂ max_shape := by
  rw [distance2mask_test, distance2mask_test]
  induction h generalizing pts with
  | nil => rfl
  | cons h₁ h₂ ih =>
    cases pts with
    | nil => rfl
    | cons p ps =>
      simp only [List.zip_cons_cons, List.map_cons]
      rw [test_distances_congr K V h₁, ih ps]

/-- Witness for C10 at a concrete pair of predictions agreeing on their
first coefficient. -/
theorem distance2mask_test_only_visulize_witness :
    List.Forall₂
        (fun c₁ c₂ : List ℂ => ∀ i, i < 1 → c₁.getD i 0 = c₂.getD i 0)
        [[1, 2]] [[1, 3]] ∧
      distance2mask_test 2 1 [((0 : ℝ), (0 : ℝ))] [[1, 2]] none
        = distance2mask_test 2 1 [((0 : ℝ), (0 : ℝ))] [[1, 3]] none := by
  have h : List.Forall₂
      (fun c₁ c₂ : List ℂ => ∀ i, i < 1 → c₁.getD i 0 = c₂.getD i 0)
      [[1, 2]] [[1, 3]] := by
    refine List.Forall₂.cons ?_ List.Forall₂.nil
    intro i hi
    interval_cases i
    rfl
  exact ⟨h, distance2mask_test_only_visulize 2 1 _ _ _ none h⟩

/-- Claim C1: for a nonempty all-positive ray-distance vector, the
centerness target equals `√(min d / max d)`, lies in `[0, 1]`, and
equals `1` exactly when all entries of the vector are equal. -/
theorem polar_centerness_target_spec {n : ℕ} (d : Fin (n + 1) → ℝ)
    (hpos : ∀ i, 0 < d i) :
    polar_centerness_target d
        = Real.sqrt (Finset.univ.inf' Finset.univ_nonempty d /
            Finset.univ.sup' Finset.univ_nonempty d) ∧
      0 ≤ polar_centerness_target d ∧ polar_centerness_target d ≤ 1 ∧
        (polar_centerness_target d = 1 ↔ ∀ i j, d i = d j) := by
  unfold polar_centerness_target
  have h0 : (0 : Fin (n + 1)) ∈ Finset.univ := Finset.mem_univ 0
  set m := Finset.univ.inf' Finset.univ_nonempty d with hm_def
  set M := Finset.univ.sup' Finset.univ_nonempty d with hM_def
  have hm : 0 < m := (Finset.lt_inf'_iff _).mpr fun i _ => hpos i
  have hmM : m ≤ M := le_trans (Finset.inf'_le _ h0) (Finset.le_sup' _ h0)
  have hM : 0 < M := lt_of_lt_of_le hm hmM
  have hMne : M ≠ 0 := ne_of_gt hM
  refine ⟨rfl, Real.sqrt_nonneg _, Real.sqrt_le_one.mpr ((div_le_one hM).mpr hmM), ?_⟩
  rw [Real.sqrt_eq_one]
  constructor
  · intro h1 i j
    have hmeM : m = M := by
      field_simp at h1
      exact h1
    have hall : ∀ i, d i = M := fun i =>
      le_antisymm (Finset.le_sup' _ (Finset.mem_univ i))
        (hmeM ▸ Finset.inf'_le _ (Finset.mem_univ i))
    rw [hall i, hall j]
  · intro h1
    have hconst : ∀ i, d i = d 0 := fun i => h1 i 0
    have hm0 : m = d 0 :=
      le_antisymm (Finset.inf'_le _ h0)
        (Finset.le_inf' _ _ fun b _ => (hconst b).ge)
    have hM0 : M = d 0 :=
      le_antisymm (Finset.sup'_le _ _ fun b _ => (hconst b).le)
        (Finset.le_sup' _ h0)
    rw [hm0, hM0, div_self (ne_of_gt (hm0 ▸ hm))]

/-- Witness for C1 at the concrete positive vector `(2, 3)`. -/
theorem polar_centerness_target_spec_witness :
    (∀ i, 0 < (![2, 3] : Fin 2 → ℝ) i) ∧
      (polar_centerness_target ![2, 3]
          = Real.sqrt (Finset.univ.inf' Finset.univ_nonempty ![2, 3] /
              Finset.univ.sup' Finset.univ_nonempty ![2, 3]) ∧
        0 ≤ polar_centerness_target ![2, 3] ∧
          polar_centerness_target ![2, 3] ≤ 1 ∧
            (polar_centerness_target ![2, 3] = 1 ↔
              ∀ i j, (![2, 3] : Fin 2 → ℝ) i = ![2, 3] j)) := by
  have hpos : ∀ i, 0 < (![2, 3] : Fin 2 → ℝ) i := by
    intro i
    fin_cases i <;> norm_num
  exact ⟨hpos, polar_centerness_target_spec ![2, 3] hpos⟩

/-- Claim C3: when every label in the batch is background (zero), the
positive index set of `loss` is empty and the bbox, mask and centerness
loss components each reduce to the sum over the empty positive
selection, i.e. the well-defined value `0`, with no error raised (the
embedded operation is total). -/
theorem loss_all_background_zero (labels : List ℤ)
    (bbox_preds mask_preds : List (List ℚ)) (ctr_preds : List ℚ)
    (fb fm fc : List ℕ → ℚ)
    (h : ∀ l ∈ labels, l = 0) :
    pos_inds labels = [] ∧
      loss_reg_components labels bbox_preds mask_preds ctr_preds fb fm fc
        = (0, 0, 0) := by
  have hpos : pos_inds labels = [] := by
    rw [pos_inds, List.filter_eq_nil_iff]
    intro i hi
    have hlen : i < labels.length := List.mem_range.mp hi
    have hval : labels[i]?.getD 0 = 0 := by
      rw [List.getElem?_eq_getElem hlen]
      exact h _ (labels.getElem_mem hlen)
    simp [List.getD_eq_getElem?_getD, hval]
  refine ⟨hpos, ?_⟩
  rw [loss_reg_components, hpos]
  simp [sel, sum_rows]

/-- Witness for C3 at a concrete all-background batch. -/
theorem loss_all_background_zero_witness :
    (∀ l ∈ ([0, 0, 0] : List ℤ), l = 0) ∧
      (pos_inds [0, 0, 0] = [] ∧
        loss_reg_components [0, 0, 0] [[1], [2], [3]] [[4], [5], [6]]
          [7, 8, 9] (fun _ => 37) (fun _ => 38) (fun _ => 39) = (0, 0, 0)) :=
  ⟨by decide,
    loss_all_background_zero [0, 0, 0] [[1], [2], [3]] [[4], [5], [6]]
      [7, 8, 9] (fun _ => 37) (fun _ => 38) (fun _ => 39) (by decide)⟩

/-- Claim C7: every decoded bbox distance, every non-Fourier decoded ray
distance, and every Fourier-path decoded ray distance (both the training
reconstruction and the inference reconstruction) is strictly positive;
each of these decoders is the real exponential of the raw regression
output (after the scale or inverse transform), with no clamping at
zero. -/
theorem decoded_distances_positive :
    (∀ scale raw : ℝ, 0 < bbox_pred_decode scale raw) ∧
    (∀ scale raw : ℝ, 0 < mask_pred_decode_direct scale raw) ∧
    (∀ (K C : ℕ) (X : Fin C → ℂ) (k : Fin K), 0 < fourier_ray_decode K C X k) ∧
    (∀ (K V : ℕ) (coeffs : List ℂ) (k : Fin K), 0 < test_distances K V coeffs k) :=
  ⟨fun _ _ => Real.exp_pos _, fun _ _ => Real.exp_pos _,
    fun _ _ _ _ => Real.exp_pos _, fun _ _ _ _ => Real.exp_pos _⟩

/-- Claim C8: the result of `get_bboxes_single` is defined exactly when
`rescale` is true; with `rescale` false (or unset, which Python treats
as falsy) the NMS step reads the unbound rescaled box/mask locals and
the call fails before returning detections. -/
theorem get_bboxes_single_requires_rescale {Dets : Type} (rescale : Bool)
    (mlvl_bboxes mlvl_masks : List ℚ) (scale_factor : ℚ)
    (nms : List ℚ × List ℚ → Dets) :
    (get_bboxes_single_result rescale mlvl_bboxes mlvl_masks scale_factor
      nms).isSome = rescale := by
  cases rescale <;>
    simp [get_bboxes_single_result, rescaled_nms_input]

/-- Claim C9: with `bbox_from_mask` true, the flattened bbox-prediction
list in `loss` is unbound (so `torch.cat` raises) exactly when it is not
the case that `use_fourier` is true and `loss_on_coe` is false. -/
theorem loss_bbox_from_mask_unbound (cfg : LossCfg)
    (bbox_preds mask_derived : List (List ℚ))
    (h : cfg.bbox_from_mask = true) :
    loss_flatten_bbox_preds cfg bbox_preds mask_derived = none ↔
      ¬(cfg.use_fourier = true ∧ cfg.loss_on_coe = false) := by
  obtain ⟨u, l, b⟩ := cfg
  cases u <;> cases l <;> cases b <;>
    simp_all [loss_flatten_bbox_preds]

/-- Witness for C9 at the concrete configuration
`use_fourier = false, loss_on_coe = false, bbox_from_mask = true`. -/
theorem loss_bbox_from_mask_unbound_witness :
    (LossCfg.mk false false true).bbox_from_mask = true ∧
      (loss_flatten_bbox_preds (LossCfg.mk false false true) [] [] = none ↔
        ¬((LossCfg.mk false false true).use_fourier = true ∧
          (LossCfg.mk false false true).loss_on_coe = false)) :=
  ⟨rfl, loss_bbox_from_mask_unbound (LossCfg.mk false false true) [] [] rfl⟩

/-- The index list sorted by descending fused value is pairwise
dominance-ordered. -/
lemma sorted_inds_pairwise (vals : List ℚ) :
    (sorted_inds vals).Pairwise
      (fun i j => vals.getD j 0 ≤ vals.getD i 0) := by
  have h := @List.sorted_mergeSort ℕ
    (fun i j : ℕ => decide (vals.getD j 0 ≤ vals.getD i 0))
    (fun a b c h1 h2 => by
      simp only [decide_eq_true_eq] at h1 h2 ⊢
      exact le_trans h2 h1)
    (fun a b => by
      simp only [Bool.or_eq_true, decide_eq_true_eq]
      exact le_total _ _)
    (List.range vals.length)
  rw [sorted_inds]
  exact h.imp fun hab => by simpa using hab

/-- Every retained top-k index dominates every dropped index in fused
value. -/
lemma topk_dominance (vals : List ℚ) (k : ℕ) :
    ∀ i ∈ topk_inds vals k, ∀ j ∈ (sorted_inds vals).drop k,
      vals.getD j 0 ≤ vals.getD i 0 := by
  have hp := sorted_inds_pairwise vals
  rw [← List.take_append_drop k (sorted_inds vals)] at hp
  exact (List.pairwise_append.mp hp).2.2

lemma topk_inds_length (vals : List ℚ) (k : ℕ) :
    (topk_inds vals k).length = min k vals.length := by
  rw [topk_inds, sorted_inds]
  simp

lemma fused_scores_length (scores : List (List ℚ)) (ctr : List ℚ) :
    (fused_scores scores ctr).length = min scores.length ctr.length := by
  simp [fused_scores]

lemma foldl_max_mul (c : ℚ) (hc : 0 ≤ c) :
    ∀ (l : List ℚ) (a : ℚ),
      (l.map (· * c)).foldl max (a * c) = l.foldl max a * c := by
  intro l
  induction l with
  | nil => intro a; rfl
  | cons x xs ih =>
    intro a
    simp only [List.map_cons, List.foldl_cons]
    rw [← max_mul_of_nonneg _ _ hc, ih]

/-- The per-point fused value computed by the code,
`max over classes of (score · centerness)`, equals
`max(class_score) · centerness` whenever centerness is nonnegative. -/
lemma row_max_mul (l : List ℚ) (c : ℚ) (hc : 0 ≤ c) :
    row_max (l.map (· * c)) = row_max l * c := by
  cases l with
  | nil => simp [row_max]
  | cons x xs => simpa [row_max] using foldl_max_mul c hc xs x

/-- Claim C4: when `0 < nms_pre < number of points`, the pre-NMS filter
keeps exactly `nms_pre` points — the selection by the top-k indices of
the fused score `(scores · centerness).max(dim=1)` — and every kept
index has fused score at least that of every dropped index; the fused
score equals `max(class_score) × centerness` for nonnegative centerness
(as produced by sigmoid).  Otherwise all tensors pass through
unchanged. -/
theorem pre_nms_filter_spec (nms_pre : ℤ) (L : LevelData)
    (hc : L.ctr.length = L.scores.length) :
    ((0 < nms_pre ∧ nms_pre < (L.scores.length : ℤ)) →
      ((pre_nms_filter nms_pre L).points.length = nms_pre.toNat ∧
        (pre_nms_filter nms_pre L).points
          = sel L.points (0, 0)
              (topk_inds (fused_scores L.scores L.ctr) nms_pre.toNat) ∧
        (∀ i ∈ topk_inds (fused_scores L.scores L.ctr) nms_pre.toNat,
          ∀ j ∈ (sorted_inds (fused_scores L.scores L.ctr)).drop
              nms_pre.toNat,
            (fused_scores L.scores L.ctr).getD j 0
              ≤ (fused_scores L.scores L.ctr).getD i 0) ∧
        (∀ p ∈ L.scores.zip L.ctr, 0 ≤ p.2 →
          row_max (p.1.map (· * p.2)) = row_max p.1 * p.2))) ∧
    (¬(0 < nms_pre ∧ nms_pre < (L.scores.length : ℤ)) →
      pre_nms_filter nms_pre L = L) := by
  constructor
  · intro hcond
    refine ⟨?_, ?_, topk_dominance _ _, fun p _ hp => row_max_mul _ _ hp⟩
    · rw [pre_nms_filter, if_pos hcond]
      simp only [sel, List.length_map]
      rw [topk_inds_length, fused_scores_length, hc, min_self]
      omega
    · rw [pre_nms_filter, if_pos hcond]
  · intro hcond
    rw [pre_nms_filter, if_neg hcond]

/-- Witness for C4 at a concrete two-point level with `nms_pre = 1`. -/
theorem pre_nms_filter_spec_witness :
    ((LevelData.mk [[1], [3]] [1, 1] [(0, 0), (1, 1)] [[], []]
        [[], []]).ctr.length
      = (LevelData.mk [[1], [3]] [1, 1] [(0, 0), (1, 1)] [[], []]
        [[], []]).scores.length) ∧
    (pre_nms_filter 1 (LevelData.mk [[1], [3]] [1, 1] [(0, 0), (1, 1)]
        [[], []] [[], []])).points.length = (1 : ℤ).toNat :=
  ⟨rfl, ((pre_nms_filter_spec 1
    (LevelData.mk [[1], [3]] [1, 1] [(0, 0), (1, 1)] [[], []] [[], []])
    rfl).1 (by decide)).1⟩

end FourierNet
